import Mathlib

/-!
# DevOps-Nexus cherry-pick service: verification development

Shallow embedding of the GitHub cherry-pick worker
(`src/servers/github-helper/src/index.ts`): the changeset resolver
(`gh pr list` invocation), the workspace preparation and replay loop of
`processJob`, the webhook notifier `sendWebhook`, the worker loop `main`,
and the job queue.  The queue implementation (`queue.js`) is imported by
the source but not part of the source tree; its operations are modelled
from the specification and marked as such in their doc comments.

Machine-level git state is modelled abstractly: a branch is its name
together with the list of commit ids reachable from its tip; replaying
(cherry-picking) a commit makes its id reachable on the current branch,
and a conflicted cherry-pick leaves an in-progress operation recorded in
the workspace (`pendingOp`), as `git cherry-pick` does until an abort or
a hard reset.
-/

namespace DevOpsNexus

/-! ## Changeset resolver -/

/-- One merged pull request as returned by
`gh pr list --json mergedAt,number,mergeCommit`: source identifier,
merge timestamp, merge-commit id. -/
structure PR where
  number : Nat
  mergedAt : Nat
  mergeCommit : Nat
deriving DecidableEq, Repr

/-- Comparison underlying `--sort merged-at --order asc`. -/
def mergeLE (a b : PR) : Prop := a.mergedAt ≤ b.mergedAt

instance : DecidableRel mergeLE := fun a b => Nat.decLe a.mergedAt b.mergedAt

instance : IsTotal PR mergeLE := ⟨fun a b => Nat.le_total a.mergedAt b.mergedAt⟩

instance : IsTrans PR mergeLE := ⟨fun _ _ _ h1 h2 => Nat.le_trans h1 h2⟩

/-- The `--limit 9999` argument of the `gh pr list` invocation. -/
def GH_LIMIT : Nat := 9999

/-- Models the resolver call in `processJob`:
`gh pr list --repo R --search Q --state merged --sort merged-at --order asc
--json mergedAt,number,mergeCommit --limit 9999`.
The input is the set of merged PRs matching the search, in the upstream
host's own order; the command requests ascending merge-time order and no
secondary sort key, so ties keep the upstream order (a stable sort), and
at most `GH_LIMIT` results are returned. -/
def ghPrList (matching : List PR) : List PR :=
  (List.insertionSort mergeLE matching).take GH_LIMIT

/-! ## Git workspace model -/

/-- A local or remote branch: its name and the commit ids reachable from
its tip. -/
structure Branch where
  name : String
  commits : List Nat
deriving DecidableEq, Repr

/-- A git repository: its branches. -/
structure Repo where
  branches : List Branch
deriving DecidableEq, Repr

/-- `startsWithChars pat text`: `pat` begins `text` character by
character. -/
def startsWithChars : List Char → List Char → Bool
  | [], _ => true
  | _ :: _, [] => false
  | a :: as, b :: bs => a == b && startsWithChars as bs

/-- `hasSubChars pat text`: `pat` occurs contiguously inside `text` —
the match performed by `grep` on each output line (for a pattern free of
regex metacharacters, as a branch name is). -/
def hasSubChars (pat : List Char) : List Char → Bool
  | [] => startsWithChars pat []
  | c :: rest => startsWithChars pat (c :: rest) || hasSubChars pat rest

/-- `sha` is reachable on branch `b`. -/
def shaOn (b : Branch) (sha : Nat) : Bool :=
  b.commits.any (fun c => c == sha)

/-- The skip check of `processJob`:
`execSync("git branch --contains SHA | grep TARGET")` succeeds (skips)
iff some local branch whose listing line matches `TARGET` as a substring
has `SHA` reachable.  When no branch contains the sha, or the sha is
unknown, the pipeline exits nonzero and the commit is not skipped. -/
def skipCheck (r : Repo) (target : String) (sha : Nat) : Bool :=
  r.branches.any (fun b => shaOn b sha && hasSubChars target.data b.name.data)

/-- `sha` is reachable from the tip of the branch actually named
`target`. -/
def reachTip (r : Repo) (target : String) (sha : Nat) : Bool :=
  r.branches.any (fun b => b.name == target && shaOn b sha)

/-- A branch named `target` exists in `r`. -/
def branchExists (r : Repo) (target : String) : Bool :=
  r.branches.any (fun b => b.name == target)

/-- Commits of the branch named `target` (first match), or `[]`. -/
def branchCommits (r : Repo) (target : String) : List Nat :=
  match r.branches.find? (fun b => b.name == target) with
  | some b => b.commits
  | none => []

/-- Set the branch named `target` to exactly the commits `cs`, creating
it when absent (the effect of `git checkout TARGET` followed by
`git reset --hard origin/TARGET`, or of `git push` on the remote). -/
def upsertBranch (r : Repo) (target : String) (cs : List Nat) : Repo :=
  if branchExists r target then
    ⟨r.branches.map (fun b => if b.name == target then ⟨b.name, cs⟩ else b)⟩
  else
    ⟨r.branches ++ [⟨target, cs⟩]⟩

/-- A successful `git cherry-pick SHA` on the checked-out branch
`target`: the change becomes reachable on that branch. -/
def addShaToBranch (r : Repo) (target : String) (sha : Nat) : Repo :=
  ⟨r.branches.map (fun b => if b.name == target then ⟨b.name, sha :: b.commits⟩ else b)⟩

/-- The local clone under `WORKSPACE_DIR/repository`: whether it exists
yet, its branches, the checked-out branch, and any in-progress
cherry-pick left behind by a conflict (git's `CHERRY_PICK_HEAD` plus the
conflicted index). -/
structure Workspace where
  cloned : Bool
  repo : Repo
  currentBranch : String
  pendingOp : Option Nat
deriving DecidableEq, Repr

/-- The remote repository together with the local workspace. -/
structure SysState where
  remote : Repo
  ws : Workspace
deriving DecidableEq, Repr

/-- Section 2 of `processJob`: `git clone --branch TARGET --single-branch`
when the workspace does not exist, then `git fetch --all`,
`git checkout TARGET`, `git reset --hard origin/TARGET`,
`git pull origin TARGET`.  The local target branch ends equal to the
remote tip and the hard reset clears any in-progress operation. -/
def prepareWorkspace (remote : Repo) (ws : Workspace) (target : String) : Workspace :=
  let tip := branchCommits remote target
  let base := if ws.cloned then ws.repo else Repo.mk [⟨target, tip⟩]
  ⟨true, upsertBranch base target tip, target, none⟩

/-- Message of the error thrown by `execSync` when
`git cherry-pick SHA` exits nonzero; it names the failed command and
therefore the commit. -/
def cherryPickMsg (sha : Nat) : String :=
  "Command failed: git cherry-pick " ++ toString sha

/-- Section 3 of `processJob`: for each sha in order, run the skip
check; otherwise `git cherry-pick SHA`, which on conflict throws out of
the loop leaving the workspace with the cherry-pick in progress.
Returns the workspace, the number of commits actually applied, and the
error when a conflict occurred. -/
def replayLoop (conflicts : Nat → Bool) (target : String) :
    List Nat → Workspace → Workspace × Nat × Option String
  | [], ws => (ws, 0, none)
  | sha :: rest, ws =>
    if skipCheck ws.repo target sha then
      replayLoop conflicts target rest ws
    else if conflicts sha then
      (⟨ws.cloned, ws.repo, ws.currentBranch, some sha⟩, 0, some (cherryPickMsg sha))
    else
      let ws1 : Workspace := ⟨ws.cloned, addShaToBranch ws.repo target sha, ws.currentBranch, ws.pendingOp⟩
      let r := replayLoop conflicts target rest ws1
      (r.1, r.2.1 + 1, r.2.2)

/-- Outcome of one `processJob` run: the final remote and workspace, how
many commits were cherry-picked, whether `git push` ran, and the error
that escaped, if any. -/
structure RunOutcome where
  sys : SysState
  applied : Nat
  pushed : Bool
  err : Option String
deriving DecidableEq, Repr

/-- Section 4 of `processJob`: `git push origin TARGET` — the remote's
target branch becomes the local one. -/
def pushTo (remote : Repo) (target : String) (locRepo : Repo) : Repo :=
  upsertBranch remote target (branchCommits locRepo target)

/-- `commitsToPick = all_prs.map(pr => pr.mergeCommit.oid)`: the ordered
sequence of merge-commit ids handed to the replay loop. -/
def commitsToPick (upstream : List PR) : List Nat :=
  (ghPrList upstream).map PR.mergeCommit

/-- `processJob(jobId, params)`: resolve matching PRs; when none, return
success before touching the workspace; otherwise prepare the workspace,
replay the merge commits in resolver order, and push on full success.
A conflict error escapes to the caller with the workspace as the failed
cherry-pick left it. -/
def processJob (conflicts : Nat → Bool) (upstream : List PR) (sys : SysState)
    (target : String) : RunOutcome :=
  let all_prs := ghPrList upstream
  if all_prs.isEmpty then ⟨sys, 0, false, none⟩
  else
    let ws1 := prepareWorkspace sys.remote sys.ws target
    let r := replayLoop conflicts target (commitsToPick upstream) ws1
    match r.2.2 with
    | some e => ⟨⟨sys.remote, r.1⟩, r.2.1, false, some e⟩
    | none => ⟨⟨pushTo sys.remote target r.1.repo, r.1⟩, r.2.1, true, none⟩

/-! ## Job queue

`queue.js` (`initQueueDb`, `addJobToQueue`, `getNextJob`, `completeJob`,
`failJob`) is imported by the source but absent from the source tree;
the operations below are modelled from the specification (§4.1). -/

/-- Job lifecycle states (spec §3). -/
inductive JStatus
  | queued
  | running
  | completed
  | failed
deriving DecidableEq, Repr

/-- Submission parameters of a cherry-pick job. -/
structure JobParams where
  repository : String
  targetBranch : String
  prFilterQuery : String
  callbackUrl : Option String
deriving DecidableEq, Repr

/-- A persisted job record. -/
structure Job where
  id : Nat
  params : JobParams
  status : JStatus
  err : Option String
deriving DecidableEq, Repr

/-- The durable job store: jobs in enqueue (creation) order, plus the
next fresh id.  `randomUUID()` is modelled as a fresh counter — the
property relied on is that ids never collide. -/
structure Queue where
  jobs : List Job
  nextId : Nat
deriving DecidableEq, Repr

/-- Modelled from the spec: `addJobToQueue(jobId, params)` persists a
new job in `queued`. -/
def addJobToQueue (q : Queue) (id : Nat) (p : JobParams) : Queue :=
  ⟨q.jobs ++ [⟨id, p, JStatus.queued, none⟩], q.nextId + 1⟩

/-- The validation error message thrown by `enqueueCherryPickJob`. -/
def missingParamsMsg : String :=
  "Missing required parameters: repository, targetBranch, prFilterQuery"

/-- `enqueueCherryPickJob(params)`: reject when repository, target
branch or filter query is empty (a falsy string in the source); else
generate a fresh id, persist the job, and return the id. -/
def enqueueCherryPickJob (q : Queue) (p : JobParams) : Except String (Nat × Queue) :=
  if p.repository.isEmpty || p.targetBranch.isEmpty || p.prFilterQuery.isEmpty then
    Except.error missingParamsMsg
  else
    Except.ok (q.nextId, addJobToQueue q q.nextId p)

/-- Claim the first `queued` job of the list (the oldest, since jobs are
stored in creation order), marking it `running` in place. -/
def claimFrom : List Job → Option Job × List Job
  | [] => (none, [])
  | j :: rest =>
    if j.status = JStatus.queued then
      (some ⟨j.id, j.params, JStatus.running, j.err⟩,
       ⟨j.id, j.params, JStatus.running, j.err⟩ :: rest)
    else
      let r := claimFrom rest
      (r.1, j :: r.2)

/-- Modelled from the spec: `claimNext()` (the source's `getNextJob`)
atomically selects the oldest `queued` job, transitions it to `running`
and returns it; returns `none` when no queued job exists. -/
def claimNext (q : Queue) : Option Job × Queue :=
  let r := claimFrom q.jobs
  (r.1, ⟨r.2, q.nextId⟩)

/-- Modelled from the spec: transition a `running` job to a terminal
state; a job not currently `running` is left untouched (the
`InvalidTransitionError` guard). -/
def setTerminal (q : Queue) (id : Nat) (st : JStatus) (e : Option String) : Queue :=
  ⟨q.jobs.map (fun j =>
      if j.id == id && j.status == JStatus.running then ⟨j.id, j.params, st, e⟩ else j),
   q.nextId⟩

/-- Modelled from the spec: `completeJob(jobId)`. -/
def completeJob (q : Queue) (id : Nat) : Queue :=
  setTerminal q id JStatus.completed none

/-- Modelled from the spec: `failJob(jobId, errorText)`. -/
def failJob (q : Queue) (id : Nat) (e : String) : Queue :=
  setTerminal q id JStatus.failed (some e)

/-- Status of the job with the given id, when present. -/
def jobStatusIn (q : Queue) (id : Nat) : Option JStatus :=
  (q.jobs.find? (fun j => j.id == id)).map Job.status

/-! ## Notifier and worker loop -/

/-- Body of the webhook POST. -/
structure WebhookPayload where
  jobId : Nat
  status : String
  repository : String
  error : Option String
deriving DecidableEq, Repr

/-- Observable side effects of one worker iteration. -/
inductive Effect
  | webhookPosted (url : String) (payload : WebhookPayload)
  | webhookFailedLogged (url : String)
  | slept (ms : Nat)
deriving DecidableEq, Repr

/-- `POLL_INTERVAL` from the source: "How long to wait (in ms) before
checking for a new job".  Declared in the source but never used. -/
def POLL_INTERVAL : Nat := 5000

/-- `sendWebhook(params, status, error)`: no-op without a callback URL;
otherwise an asynchronous `axios.post` whose failure is only logged (the
`.catch` handler) — it neither throws nor touches the job.
`deliveryOk` stands for whether the endpoint accepts the POST. -/
def sendWebhook (job : Job) (deliveryOk : Bool) (status : String)
    (e : Option String) : List Effect :=
  match job.params.callbackUrl with
  | none => []
  | some url =>
    if deliveryOk then
      [Effect.webhookPosted url ⟨job.id, status, job.params.repository, e⟩]
    else
      [Effect.webhookFailedLogged url]

/-- One iteration of the worker loop in `main`: claim a job; when none,
the source's else-branch is the empty stub `// ... (wait logic) ...`, so
the iteration ends with no effect (in particular no sleep); when a job
is claimed, run `processJob`, then `completeJob` or `failJob` (the
cherry-pick catch branch `// ... (abort logic) ...` is likewise an empty
stub and performs no abort), then fire the webhook. -/
def workerStep (conflicts : Nat → Bool) (resolve : String → String → List PR)
    (deliveryOk : Bool) (q : Queue) (sys : SysState) : Queue × SysState × List Effect :=
  match claimNext q with
  | (none, q1) => (q1, sys, [])
  | (some job, q1) =>
    let upstream := resolve job.params.repository job.params.prFilterQuery
    let r := processJob conflicts upstream sys job.params.targetBranch
    match r.err with
    | none => (completeJob q1 job.id, r.sys, sendWebhook job deliveryOk "completed" none)
    | some e => (failJob q1 job.id e, r.sys, sendWebhook job deliveryOk "failed" (some e))

/-! ## Resolver lemmas and claims about ordering (C3) and completeness (C8) -/

lemma ghPrList_sorted (l : List PR) : List.Sorted mergeLE (ghPrList l) :=
  List.Pairwise.sublist (List.take_sublist GH_LIMIT (List.insertionSort mergeLE l))
    (List.sorted_insertionSort mergeLE l)

/-- Merge-time order strengthened to an antisymmetric relation, used to
show the resolver's output is determined by merge times when they are
distinct. -/
def mergeLtEq (a b : PR) : Prop := a.mergedAt < b.mergedAt ∨ a = b

instance : IsAntisymm PR mergeLtEq :=
  ⟨fun a b hab hba => by
    rcases hab with h1 | h1
    · rcases hba with h2 | h2
      · exact absurd h1 (Nat.lt_asymm h2)
      · exact h2.symm
    · exact h1⟩

lemma ghPrList_det (l l' : List PR) (hp : l.Perm l')
    (hinj : ∀ a ∈ l, ∀ b ∈ l, a.mergedAt = b.mergedAt → a = b) :
    ghPrList l = ghPrList l' := by
  have hperm : (List.insertionSort mergeLE l).Perm (List.insertionSort mergeLE l') :=
    ((List.perm_insertionSort mergeLE l).trans hp).trans
      (List.perm_insertionSort mergeLE l').symm
  have hmem : ∀ a : PR, a ∈ List.insertionSort mergeLE l → a ∈ l := fun a ha =>
    (List.perm_insertionSort mergeLE l).mem_iff.mp ha
  have hmem' : ∀ a : PR, a ∈ List.insertionSort mergeLE l' → a ∈ l := fun a ha =>
    hp.mem_iff.mpr ((List.perm_insertionSort mergeLE l').mem_iff.mp ha)
  have hs1 : List.Sorted mergeLtEq (List.insertionSort mergeLE l) :=
    List.Pairwise.imp_of_mem
      (fun ha hb hr => by
        rcases lt_or_eq_of_le hr with h | h
        · exact Or.inl h
        · exact Or.inr (hinj _ (hmem _ ha) _ (hmem _ hb) h))
      (List.sorted_insertionSort mergeLE l)
  have hs2 : List.Sorted mergeLtEq (List.insertionSort mergeLE l') :=
    List.Pairwise.imp_of_mem
      (fun ha hb hr => by
        rcases lt_or_eq_of_le hr with h | h
        · exact Or.inl h
        · exact Or.inr (hinj _ (hmem' _ ha) _ (hmem' _ hb) h))
      (List.sorted_insertionSort mergeLE l')
  unfold ghPrList
  rw [List.eq_of_perm_of_sorted hperm hs1 hs2]

/-- C3, counterexample: two changesets share a merge timestamp and the
upstream host lists the higher source identifier first; the sequence
handed to the replay engine keeps that order, so ties are NOT broken by
source identifier ascending (the claimed order would put number 1
first). -/
theorem resolver_tie_order_counterexample :
    (ghPrList [⟨2, 5, 102⟩, ⟨1, 5, 101⟩]).map PR.number = [2, 1] ∧
    commitsToPick [⟨2, 5, 102⟩, ⟨1, 5, 101⟩] = [102, 101] := by
  constructor
  · rfl
  · rfl

/-- C3 (amended): the sequence handed to the replay engine is ordered
ascending by merge timestamp; no source-identifier tie-break is applied
(ties keep the upstream host's order), and when merge timestamps are
pairwise distinct the sequence is independent of the order (hence of any
identifier numbering) in which the upstream host lists the changesets. -/
theorem replay_order_by_merge_time :
    (∀ upstream : List PR, List.Sorted mergeLE (ghPrList upstream)) ∧
    (∀ l l' : List PR, l.Perm l' →
        (∀ a ∈ l, ∀ b ∈ l, a.mergedAt = b.mergedAt → a = b) →
        commitsToPick l = commitsToPick l') :=
  ⟨ghPrList_sorted, fun l l' hp hinj => by
    unfold commitsToPick
    rw [ghPrList_det l l' hp hinj]⟩

theorem replay_order_by_merge_time_witness :
    List.Sorted mergeLE (ghPrList [⟨3, 9, 103⟩, ⟨1, 4, 101⟩, ⟨2, 2, 102⟩]) ∧
    commitsToPick [⟨1, 4, 101⟩, ⟨2, 2, 102⟩] = commitsToPick [⟨2, 2, 102⟩, ⟨1, 4, 101⟩] :=
  ⟨replay_order_by_merge_time.1 _,
   replay_order_by_merge_time.2 [⟨1, 4, 101⟩, ⟨2, 2, 102⟩] [⟨2, 2, 102⟩, ⟨1, 4, 101⟩]
     (List.Perm.swap _ _ _) (by decide)⟩

lemma ghPrList_perm_of_le (l : List PR) (h : l.length ≤ GH_LIMIT) :
    (ghPrList l).Perm l := by
  have hlen : (List.insertionSort mergeLE l).length = l.length :=
    (List.perm_insertionSort mergeLE l).length_eq
  unfold ghPrList
  rw [List.take_of_length_le (by rw [hlen]; exact h)]
  exact List.perm_insertionSort mergeLE l

/-- C8, counterexample: with `GH_LIMIT + 1 = 10000` merged changesets
matching the filter, the resolver returns only `GH_LIMIT = 9999` of them
(the `--limit 9999` cap), so at least one match is omitted — the claim
"for every number of matches, none is omitted" fails. -/
theorem resolver_limit_counterexample :
    ((List.range (GH_LIMIT + 1)).map (fun i => (⟨i, i, i⟩ : PR))).length = GH_LIMIT + 1 ∧
    (ghPrList ((List.range (GH_LIMIT + 1)).map (fun i => (⟨i, i, i⟩ : PR)))).length = GH_LIMIT ∧
    ∃ pr ∈ (List.range (GH_LIMIT + 1)).map (fun i => (⟨i, i, i⟩ : PR)),
      pr ∉ ghPrList ((List.range (GH_LIMIT + 1)).map (fun i => (⟨i, i, i⟩ : PR))) := by
  have hlen : ((List.range (GH_LIMIT + 1)).map (fun i => (⟨i, i, i⟩ : PR))).length
      = GH_LIMIT + 1 := by
    rw [List.length_map, List.length_range]
  have hout : (ghPrList ((List.range (GH_LIMIT + 1)).map (fun i => (⟨i, i, i⟩ : PR)))).length
      = GH_LIMIT := by
    unfold ghPrList
    rw [List.length_take, (List.perm_insertionSort mergeLE _).length_eq, hlen]
    exact min_eq_left (Nat.le_succ _)
  refine ⟨hlen, hout, ?_⟩
  by_contra hall
  push_neg at hall
  have hnd : ((List.range (GH_LIMIT + 1)).map (fun i => (⟨i, i, i⟩ : PR))).Nodup :=
    List.Nodup.map (fun a b hab => congrArg PR.number hab) (List.nodup_range _)
  have hle := (List.subperm_of_subset hnd (fun pr hpr => hall pr hpr)).length_le
  rw [hlen, hout] at hle
  exact Nat.not_succ_le_self GH_LIMIT hle

/-- C8 (amended): the resolver returns matching merged changesets
ordered ascending by merge time, drawn from the matches, and complete
whenever at most `GH_LIMIT = 9999` changesets match (the query is capped
at 9999 results; beyond that, later-merged matches are omitted); an
empty result is a valid success — `processJob` returns without error and
without touching the workspace. -/
theorem resolver_sorted_complete_up_to_limit :
    (∀ l : List PR, List.Sorted mergeLE (ghPrList l) ∧ ∀ pr ∈ ghPrList l, pr ∈ l) ∧
    (∀ l : List PR, l.length ≤ GH_LIMIT → (ghPrList l).Perm l) ∧
    (∀ (conflicts : Nat → Bool) (sys : SysState) (target : String),
        processJob conflicts [] sys target = ⟨sys, 0, false, none⟩) :=
  ⟨fun l => ⟨ghPrList_sorted l,
      fun _ hpr => (List.perm_insertionSort mergeLE l).mem_iff.mp
        ((List.take_sublist GH_LIMIT (List.insertionSort mergeLE l)).subset hpr)⟩,
   ghPrList_perm_of_le,
   fun _ _ _ => rfl⟩

theorem resolver_sorted_complete_up_to_limit_witness :
    (ghPrList [⟨1, 4, 101⟩, ⟨2, 2, 102⟩]).Perm [⟨1, 4, 101⟩, ⟨2, 2, 102⟩] :=
  resolver_sorted_complete_up_to_limit.2.1 [⟨1, 4, 101⟩, ⟨2, 2, 102⟩] (by decide)

/-! ## Submission validation (C5), notifier (C7), worker polling (C9) -/

/-- C5: `enqueueCherryPickJob` rejects a submission whose repository,
target branch or filter query is empty with the validation error and
creates no job; otherwise it persists exactly one new job in `queued`
status at the end of the store and returns that job's fresh id. -/
theorem enqueue_validates_and_persists :
    (∀ (q : Queue) (p : JobParams),
        (p.repository.isEmpty || p.targetBranch.isEmpty || p.prFilterQuery.isEmpty) = true →
        enqueueCherryPickJob q p = Except.error missingParamsMsg) ∧
    (∀ (q : Queue) (p : JobParams),
        (p.repository.isEmpty || p.targetBranch.isEmpty || p.prFilterQuery.isEmpty) = false →
        enqueueCherryPickJob q p =
          Except.ok (q.nextId, ⟨q.jobs ++ [⟨q.nextId, p, JStatus.queued, none⟩], q.nextId + 1⟩)) :=
  ⟨fun q p h => by simp [enqueueCherryPickJob, h],
   fun q p h => by simp [enqueueCherryPickJob, addJobToQueue, h]⟩

theorem enqueue_validates_and_persists_witness :
    enqueueCherryPickJob ⟨[], 0⟩ ⟨"", "release", "label:backport", none⟩ =
      Except.error missingParamsMsg ∧
    enqueueCherryPickJob ⟨[], 0⟩ ⟨"org/app", "release", "label:backport", none⟩ =
      Except.ok (0, ⟨[⟨0, ⟨"org/app", "release", "label:backport", none⟩, JStatus.queued, none⟩], 1⟩) :=
  ⟨enqueue_validates_and_persists.1 _ _ (by decide),
   enqueue_validates_and_persists.2 _ _ (by decide)⟩

/-- C7: the notifier is a no-op without a callback URL; with one, a
failed delivery produces only a log effect; and the queue and system
state produced by a worker iteration are identical whether the webhook
delivery succeeds or fails — delivery outcome never reaches the job's
status or the loop. -/
theorem notifier_best_effort :
    (∀ (job : Job) (ok : Bool) (status : String) (e : Option String),
        job.params.callbackUrl = none → sendWebhook job ok status e = []) ∧
    (∀ (job : Job) (status : String) (e : Option String) (url : String),
        job.params.callbackUrl = some url →
        sendWebhook job false status e = [Effect.webhookFailedLogged url]) ∧
    (∀ (conflicts : Nat → Bool) (resolve : String → String → List PR) (q : Queue) (sys : SysState),
        (workerStep conflicts resolve true q sys).1 = (workerStep conflicts resolve false q sys).1 ∧
        (workerStep conflicts resolve true q sys).2.1 = (workerStep conflicts resolve false q sys).2.1) := by
  refine ⟨fun job ok status e h => by simp [sendWebhook, h],
          fun job status e url h => by simp [sendWebhook, h], ?_⟩
  intro conflicts resolve q sys
  unfold workerStep
  rcases hq : claimNext q with ⟨_ | job, q1⟩
  · exact ⟨rfl, rfl⟩
  · rcases he : (processJob conflicts (resolve job.params.repository job.params.prFilterQuery)
        sys job.params.targetBranch).err with _ | e <;>
      simp [hq, he]

theorem notifier_best_effort_witness :
    sendWebhook ⟨1, ⟨"r", "t", "q", none⟩, JStatus.running, none⟩ true "completed" none = [] ∧
    sendWebhook ⟨1, ⟨"r", "t", "q", some "http://cb"⟩, JStatus.running, none⟩ false "failed"
        (some "boom") = [Effect.webhookFailedLogged "http://cb"] :=
  ⟨notifier_best_effort.1 _ _ _ _ rfl, notifier_best_effort.2.1 _ _ _ _ rfl⟩

lemma claimFrom_none (l : List Job) (h : ∀ j ∈ l, j.status ≠ JStatus.queued) :
    claimFrom l = (none, l) := by
  induction l with
  | nil => rfl
  | cons j rest ih =>
    simp [claimFrom, h j (List.mem_cons_self j rest),
      ih (fun k hk => h k (List.mem_cons_of_mem j hk))]

lemma claimNext_none (q : Queue) (h : ∀ j ∈ q.jobs, j.status ≠ JStatus.queued) :
    claimNext q = (none, q) := by
  unfold claimNext
  rw [claimFrom_none q.jobs h]

/-- C9: when no queued job exists, the worker iteration of the source
ends immediately with no effect at all — in particular it never emits a
sleep of `POLL_INTERVAL` before the next poll, because the else-branch
of the claim is the empty stub `// ... (wait logic) ...` and
`POLL_INTERVAL` is never referenced.  This contradicts the claimed
fixed-backoff suspension (code bug: the source's own comment on
`POLL_INTERVAL` documents the intended wait). -/
theorem worker_no_backoff_on_empty (conflicts : Nat → Bool)
    (resolve : String → String → List PR) (deliveryOk : Bool) (q : Queue) (sys : SysState)
    (h : ∀ j ∈ q.jobs, j.status ≠ JStatus.queued) :
    workerStep conflicts resolve deliveryOk q sys = (q, sys, []) ∧
    Effect.slept POLL_INTERVAL ∉ (workerStep conflicts resolve deliveryOk q sys).2.2 := by
  have hc := claimNext_none q h
  constructor
  · unfold workerStep
    rw [hc]
  · unfold workerStep
    rw [hc]
    simp

theorem worker_no_backoff_on_empty_witness :
    workerStep (fun _ => false) (fun _ _ => []) true ⟨[], 0⟩ ⟨⟨[]⟩, ⟨false, ⟨[]⟩, "", none⟩⟩ =
      (⟨[], 0⟩, ⟨⟨[]⟩, ⟨false, ⟨[]⟩, "", none⟩⟩, []) :=
  (worker_no_backoff_on_empty (fun _ => false) (fun _ _ => []) true ⟨[], 0⟩
    ⟨⟨[]⟩, ⟨false, ⟨[]⟩, "", none⟩⟩ (by simp)).1

/-! ## Queue claim characterization (C4) -/

lemma claimFrom_some (l : List Job) (j : Job) (l' : List Job)
    (h : claimFrom l = (some j, l')) :
    ∃ pre jf post, l = pre ++ jf :: post ∧ (∀ k ∈ pre, k.status ≠ JStatus.queued) ∧
      jf.status = JStatus.queued ∧ j = ⟨jf.id, jf.params, JStatus.running, jf.err⟩ ∧
      l' = pre ++ j :: post := by
  induction l generalizing l' with
  | nil => simp [claimFrom] at h
  | cons a rest ih =>
    by_cases ha : a.status = JStatus.queued
    · simp only [claimFrom, if_pos ha, Prod.mk.injEq, Option.some.injEq] at h
      obtain ⟨h1, h2⟩ := h
      refine ⟨[], a, rest, rfl, by simp, ha, h1.symm, ?_⟩
      rw [← h2, h1]
      rfl
    · rcases hr : claimFrom rest with ⟨r1, r2⟩
      simp only [claimFrom, if_neg ha, hr, Prod.mk.injEq] at h
      obtain ⟨h1, h2⟩ := h
      subst h1
      obtain ⟨pre, jf, post, hsplit, hpre, hjf, hj, hrest⟩ := ih r2 hr
      refine ⟨a :: pre, jf, post, ?_, ?_, hjf, hj, ?_⟩
      · rw [hsplit]
        rfl
      · intro k hk
        rcases List.mem_cons.mp hk with hk | hk
        · rw [hk]
          exact ha
        · exact hpre k hk
      · rw [← h2, hrest]
        rfl

lemma claimNext_some (q : Queue) (j : Job) (q' : Queue)
    (h : claimNext q = (some j, q')) :
    j.status = JStatus.running ∧
    ∃ pre jf post, q.jobs = pre ++ jf :: post ∧
      (∀ k ∈ pre, k.status ≠ JStatus.queued) ∧ jf.status = JStatus.queued ∧
      j = ⟨jf.id, jf.params, JStatus.running, jf.err⟩ ∧ q'.jobs = pre ++ j :: post := by
  unfold claimNext at h
  rcases hr : claimFrom q.jobs with ⟨r1, r2⟩
  rw [hr] at h
  simp only [Prod.mk.injEq] at h
  obtain ⟨h1, h2⟩ := h
  obtain ⟨pre, jf, post, hsplit, hpre, hjf, hj, hrest⟩ :=
    claimFrom_some q.jobs j r2 (by rw [hr, h1])
  exact ⟨by rw [hj], pre, jf, post, hsplit, hpre, hjf, hj, by rw [← h2, hrest]⟩

lemma claim_ids_distinct (q : Queue) (j : Job) (q' : Queue) (j' : Job) (q'' : Queue)
    (hnd : (q.jobs.map Job.id).Nodup)
    (h1 : claimNext q = (some j, q'))
    (h2 : claimNext q' = (some j', q'')) :
    j.id ≠ j'.id := by
  obtain ⟨hs1, pre, jf, post, hsplit, hpre, hjf, hj, hq'⟩ := claimNext_some q j q' h1
  obtain ⟨hs2, pre2, jf2, post2, hsplit2, hpre2, hjf2, hj2, hq''⟩ := claimNext_some q' j' q'' h2
  have hmapeq : q'.jobs.map Job.id = q.jobs.map Job.id := by
    rw [hq', hsplit]
    simp [hj]
  have hnd' : (q'.jobs.map Job.id).Nodup := by
    rw [hmapeq]
    exact hnd
  intro heq
  have hj_mem : j ∈ q'.jobs := by
    rw [hq']
    exact List.mem_append_right pre (List.mem_cons_self j post)
  have hjf2_mem : jf2 ∈ q'.jobs := by
    rw [hsplit2]
    exact List.mem_append_right pre2 (List.mem_cons_self jf2 post2)
  have hid : jf2.id = j.id := by
    have : j'.id = jf2.id := by rw [hj2]
    rw [← this, ← heq]
  have heqj : jf2 = j := List.inj_on_of_nodup_map hnd' hjf2_mem hj_mem hid
  rw [heqj, hs1] at hjf2
  exact JStatus.noConfusion hjf2

/-- C4: `claimNext` (spec-modelled; the source's `queue.js` is not in
the tree) returns `none` leaving the store untouched when no queued job
exists; when it returns a job, that job was the oldest queued one (all
jobs created before it are not queued), it is returned and recorded as
`running`, and everything else is unchanged; and two successive claims —
the serialization of any two concurrent callers around the atomic claim
— can never yield the same job id. -/
theorem claimNext_at_most_once :
    (∀ q : Queue, (∀ j ∈ q.jobs, j.status ≠ JStatus.queued) → claimNext q = (none, q)) ∧
    (∀ (q : Queue) (j : Job) (q' : Queue), claimNext q = (some j, q') →
        j.status = JStatus.running ∧
        ∃ pre jf post, q.jobs = pre ++ jf :: post ∧
          (∀ k ∈ pre, k.status ≠ JStatus.queued) ∧ jf.status = JStatus.queued ∧
          j = ⟨jf.id, jf.params, JStatus.running, jf.err⟩ ∧ q'.jobs = pre ++ j :: post) ∧
    (∀ (q : Queue) (j : Job) (q' : Queue) (j' : Job) (q'' : Queue),
        (q.jobs.map Job.id).Nodup → claimNext q = (some j, q') →
        claimNext q' = (some j', q'') → j.id ≠ j'.id) :=
  ⟨claimNext_none, claimNext_some, claim_ids_distinct⟩

theorem claimNext_at_most_once_witness :
    (⟨0, ⟨"r", "t", "q", none⟩, JStatus.running, none⟩ : Job).id ≠
      (⟨1, ⟨"r", "t", "q", none⟩, JStatus.running, none⟩ : Job).id :=
  claimNext_at_most_once.2.2
    ⟨[⟨0, ⟨"r", "t", "q", none⟩, JStatus.queued, none⟩,
      ⟨1, ⟨"r", "t", "q", none⟩, JStatus.queued, none⟩], 2⟩
    ⟨0, ⟨"r", "t", "q", none⟩, JStatus.running, none⟩
    ⟨[⟨0, ⟨"r", "t", "q", none⟩, JStatus.running, none⟩,
      ⟨1, ⟨"r", "t", "q", none⟩, JStatus.queued, none⟩], 2⟩
    ⟨1, ⟨"r", "t", "q", none⟩, JStatus.running, none⟩
    ⟨[⟨0, ⟨"r", "t", "q", none⟩, JStatus.running, none⟩,
      ⟨1, ⟨"r", "t", "q", none⟩, JStatus.running, none⟩], 2⟩
    (by decide) (by decide) (by decide)

/-! ## Zero-changeset jobs (C6) -/

lemma setTerminal_id_preserved (id : Nat) (st : JStatus) (e : Option String) (j : Job) :
    (if j.id == id && j.status == JStatus.running then (⟨j.id, j.params, st, e⟩ : Job) else j).id
      = j.id := by
  by_cases h : j.id == id && j.status == JStatus.running
  · rw [if_pos h]
  · rw [if_neg h]

lemma jobStatusIn_setTerminal_of_claim (q : Queue) (j : Job) (q' : Queue)
    (hnd : (q.jobs.map Job.id).Nodup) (h : claimNext q = (some j, q'))
    (st : JStatus) (e : Option String) :
    jobStatusIn (setTerminal q' j.id st e) j.id = some st := by
  obtain ⟨hs, pre, jf, post, hsplit, hpre, hjf, hj, hq'⟩ := claimNext_some q j q' h
  have hjid : j.id = jf.id := by rw [hj]
  have hnotin : jf.id ∉ pre.map Job.id := by
    rw [hsplit, List.map_append] at hnd
    have hdisj := (List.nodup_append.mp hnd).2.2
    intro hmem
    exact hdisj hmem (by simp)
  set f : Job → Job :=
    fun k => if k.id == j.id && k.status == JStatus.running then ⟨k.id, k.params, st, e⟩ else k
    with hf
  have hjobs : (setTerminal q' j.id st e).jobs = (pre.map f) ++ (f j :: post.map f) := by
    unfold setTerminal
    rw [hq', List.map_append, List.map_cons]
  have hfj : f j = ⟨j.id, j.params, st, e⟩ := by
    simp [hf, hs]
  have hprenone : List.find? (fun k => k.id == j.id) (pre.map f) = none := by
    rw [List.find?_eq_none]
    intro x hx
    obtain ⟨k, hk, hkx⟩ := List.mem_map.mp hx
    have hxid : x.id = k.id := by
      rw [← hkx, hf]
      exact setTerminal_id_preserved j.id st e k
    simp only [hxid]
    intro hbeq
    have : k.id = jf.id := by
      rw [← hjid]
      exact eq_of_beq hbeq
    exact hnotin (this ▸ List.mem_map_of_mem Job.id hk)
  unfold jobStatusIn
  rw [hjobs, List.find?_append, hprenone]
  have hfind : List.find? (fun k => k.id == j.id) (f j :: post.map f) = some (f j) := by
    have : ((f j).id == j.id) = true := by
      rw [hfj]
      simp
    simp [List.find?, this]
  simp [hfind, hfj]

/-- C6: when changeset resolution yields zero matching changesets, the
worker iteration leaves the remote and the workspace completely
untouched (even stronger than "no mutation beyond fetch/reset": the
early return precedes workspace preparation) and transitions the job to
`completed`. -/
theorem zero_changesets_completes (conflicts : Nat → Bool)
    (resolve : String → String → List PR) (deliveryOk : Bool)
    (q q1 : Queue) (job : Job) (sys : SysState)
    (hnd : (q.jobs.map Job.id).Nodup)
    (hclaim : claimNext q = (some job, q1))
    (hres : ghPrList (resolve job.params.repository job.params.prFilterQuery) = []) :
    (workerStep conflicts resolve deliveryOk q sys).2.1 = sys ∧
    jobStatusIn (workerStep conflicts resolve deliveryOk q sys).1 job.id
      = some JStatus.completed := by
  have hproc : processJob conflicts (resolve job.params.repository job.params.prFilterQuery)
      sys job.params.targetBranch = ⟨sys, 0, false, none⟩ := by
    unfold processJob
    rw [hres]
    rfl
  have hstep : workerStep conflicts resolve deliveryOk q sys =
      (completeJob q1 job.id, sys, sendWebhook job deliveryOk "completed" none) := by
    unfold workerStep
    rw [hclaim]
    simp only [hproc]
  rw [hstep]
  exact ⟨rfl, jobStatusIn_setTerminal_of_claim q job q1 hnd hclaim JStatus.completed none⟩

theorem zero_changesets_completes_witness :
    (workerStep (fun _ => false) (fun _ _ => []) true
        ⟨[⟨1, ⟨"org/app", "main", "label:none", none⟩, JStatus.queued, none⟩], 2⟩
        ⟨⟨[⟨"main", [0]⟩]⟩, ⟨false, ⟨[]⟩, "", none⟩⟩).2.1
      = ⟨⟨[⟨"main", [0]⟩]⟩, ⟨false, ⟨[]⟩, "", none⟩⟩ ∧
    jobStatusIn (workerStep (fun _ => false) (fun _ _ => []) true
        ⟨[⟨1, ⟨"org/app", "main", "label:none", none⟩, JStatus.queued, none⟩], 2⟩
        ⟨⟨[⟨"main", [0]⟩]⟩, ⟨false, ⟨[]⟩, "", none⟩⟩).1 1 = some JStatus.completed :=
  zero_changesets_completes (fun _ => false) (fun _ _ => []) true
    ⟨[⟨1, ⟨"org/app", "main", "label:none", none⟩, JStatus.queued, none⟩], 2⟩
    ⟨[⟨1, ⟨"org/app", "main", "label:none", none⟩, JStatus.running, none⟩], 2⟩
    ⟨1, ⟨"org/app", "main", "label:none", none⟩, JStatus.running, none⟩
    ⟨⟨[⟨"main", [0]⟩]⟩, ⟨false, ⟨[]⟩, "", none⟩⟩
    (by decide) (by decide) rfl

/-! ## Skip check by substring (C10) and conflict handling (C1) -/

lemma startsWithChars_refl (l : List Char) : startsWithChars l l = true := by
  induction l with
  | nil => rfl
  | cons c rest ih => simp [startsWithChars, ih]

lemma hasSubChars_refl (l : List Char) : hasSubChars l l = true := by
  cases l with
  | nil => rfl
  | cons c rest => simp [hasSubChars, startsWithChars_refl]

/-- C10: the skip check pipes `git branch --contains SHA` through
`grep TARGET`, a substring match on branch names: any commit reachable
from any local branch whose name contains the target branch name as a
substring is skipped (the replay step is a no-op for it), whether or not
it is reachable from the target branch tip itself. -/
theorem skip_check_substring_overmatch (conflicts : Nat → Bool) (target : String)
    (ws : Workspace) (sha : Nat) (rest : List Nat) (b : Branch)
    (hb : b ∈ ws.repo.branches) (hname : hasSubChars target.data b.name.data = true)
    (hsha : shaOn b sha = true) :
    skipCheck ws.repo target sha = true ∧
    replayLoop conflicts target (sha :: rest) ws = replayLoop conflicts target rest ws := by
  have hsk : skipCheck ws.repo target sha = true :=
    List.any_eq_true.mpr ⟨b, hb, by rw [hsha, hname]; rfl⟩
  refine ⟨hsk, ?_⟩
  simp [replayLoop, hsk]

theorem skip_check_substring_overmatch_witness :
    reachTip ⟨[⟨"main", [0]⟩, ⟨"release-hotfix", [7]⟩]⟩ "release" 7 = false ∧
    replayLoop (fun _ => false) "release" [7]
        ⟨true, ⟨[⟨"main", [0]⟩, ⟨"release-hotfix", [7]⟩]⟩, "release", none⟩ =
      replayLoop (fun _ => false) "release" []
        ⟨true, ⟨[⟨"main", [0]⟩, ⟨"release-hotfix", [7]⟩]⟩, "release", none⟩ :=
  ⟨by decide,
   (skip_check_substring_overmatch (fun _ => false) "release"
     ⟨true, ⟨[⟨"main", [0]⟩, ⟨"release-hotfix", [7]⟩]⟩, "release", none⟩ 7 []
     ⟨"release-hotfix", [7]⟩ (by decide) (by decide) (by decide)).2⟩

/-- C1: evidence that the code contradicts the claim's abort behaviour
(code bug — the catch branch for cherry-pick failures is the empty stub
`// ... (abort logic) ...`).  On the concrete job replaying commits
`[11, 12]` where 12 conflicts: the job fails with an error naming the
conflicting cherry-pick, commit 11 replayed before the conflict remains
applied and nothing is pushed — but the workspace is left with the
conflicted cherry-pick still in progress (`pendingOp = some 12`), i.e.
partial merge state remains and no abort restored the workspace. -/
theorem conflict_leaves_merge_state :
    processJob (fun s => s == 12) [⟨1, 4, 11⟩, ⟨2, 6, 12⟩]
        ⟨⟨[⟨"main", [0]⟩]⟩, ⟨false, ⟨[]⟩, "", none⟩⟩ "main" =
      ⟨⟨⟨[⟨"main", [0]⟩]⟩, ⟨true, ⟨[⟨"main", [11, 0]⟩]⟩, "main", some 12⟩⟩, 1, false,
        some (cherryPickMsg 12)⟩ ∧
    (processJob (fun s => s == 12) [⟨1, 4, 11⟩, ⟨2, 6, 12⟩]
        ⟨⟨[⟨"main", [0]⟩]⟩, ⟨false, ⟨[]⟩, "", none⟩⟩ "main").sys.ws.pendingOp ≠ none ∧
    hasSubChars "cherry-pick".data (cherryPickMsg 12).data = true := by
  refine ⟨rfl, ?_, ?_⟩
  · decide
  · decide

/-! ## Repository growth and skip-check stability (towards C2) -/

/-- Pointwise growth of a repository: every branch persists under the
same name with at least the same reachable commits. -/
def Repo.Le (r r' : Repo) : Prop :=
  ∀ b ∈ r.branches, ∃ b' ∈ r'.branches, b'.name = b.name ∧ ∀ s ∈ b.commits, s ∈ b'.commits

lemma repoLe_refl (r : Repo) : Repo.Le r r :=
  fun b hb => ⟨b, hb, rfl, fun _ hs => hs⟩

lemma repoLe_trans {r1 r2 r3 : Repo} (h1 : Repo.Le r1 r2) (h2 : Repo.Le r2 r3) :
    Repo.Le r1 r3 := by
  intro b hb
  obtain ⟨b', hb', hn, hc⟩ := h1 b hb
  obtain ⟨b'', hb'', hn', hc'⟩ := h2 b' hb'
  exact ⟨b'', hb'', hn'.trans hn, fun s hs => hc' s (hc s hs)⟩

lemma shaOn_iff (b : Branch) (sha : Nat) : shaOn b sha = true ↔ sha ∈ b.commits := by
  unfold shaOn
  rw [List.any_eq_true]
  constructor
  · rintro ⟨c, hc, hbeq⟩
    exact eq_of_beq hbeq ▸ hc
  · intro h
    exact ⟨sha, h, beq_self_eq_true sha⟩

lemma addSha_le (r : Repo) (target : String) (sha : Nat) :
    Repo.Le r (addShaToBranch r target sha) := by
  intro b hb
  by_cases h : (b.name == target) = true
  · refine ⟨⟨b.name, sha :: b.commits⟩, ?_, rfl, fun s hs => List.mem_cons_of_mem sha hs⟩
    exact List.mem_map.mpr ⟨b, hb, by rw [if_pos h]⟩
  · exact ⟨b, List.mem_map.mpr ⟨b, hb, by rw [if_neg h]⟩, rfl, fun _ hs => hs⟩

lemma skipCheck_mono {r r' : Repo} (target : String) (sha : Nat)
    (hle : Repo.Le r r') (h : skipCheck r target sha = true) :
    skipCheck r' target sha = true := by
  obtain ⟨b, hb, hp⟩ := List.any_eq_true.mp h
  rw [Bool.and_eq_true] at hp
  obtain ⟨hsha, hname⟩ := hp
  obtain ⟨b', hb', hn, hc⟩ := hle b hb
  refine List.any_eq_true.mpr ⟨b', hb', ?_⟩
  rw [Bool.and_eq_true]
  refine ⟨(shaOn_iff b' sha).mpr (hc sha ((shaOn_iff b sha).mp hsha)), ?_⟩
  rw [hn]
  exact hname

lemma addSha_names (r : Repo) (target : String) (sha : Nat) :
    (addShaToBranch r target sha).branches.map Branch.name = r.branches.map Branch.name := by
  unfold addShaToBranch
  rw [List.map_map]
  apply List.map_congr_left
  intro b _
  by_cases h : (b.name == target) = true
  · simp [Function.comp, h]
  · simp [Function.comp, h]

lemma any_name_eq (l : List Branch) (target : String) :
    l.any (fun b => b.name == target) = (l.map Branch.name).any (fun n => n == target) := by
  induction l with
  | nil => rfl
  | cons a l ih => simp [List.any_cons, ih]

lemma branchExists_eq_names (r : Repo) (target : String) :
    branchExists r target = (r.branches.map Branch.name).any (fun n => n == target) :=
  any_name_eq r.branches target

lemma addSha_skip (r : Repo) (target : String) (sha : Nat)
    (h : branchExists r target = true) :
    skipCheck (addShaToBranch r target sha) target sha = true := by
  obtain ⟨b, hb, hbn⟩ := List.any_eq_true.mp h
  refine List.any_eq_true.mpr ⟨⟨b.name, sha :: b.commits⟩, ?_, ?_⟩
  · exact List.mem_map.mpr ⟨b, hb, by rw [if_pos hbn]⟩
  · rw [Bool.and_eq_true]
    refine ⟨(shaOn_iff _ _).mpr (List.mem_cons_self _ _), ?_⟩
    rw [show (⟨b.name, sha :: b.commits⟩ : Branch).name = b.name from rfl, eq_of_beq hbn]
    exact hasSubChars_refl target.data

lemma reachTip_skip (r : Repo) (target : String) (sha : Nat)
    (h : reachTip r target sha = true) : skipCheck r target sha = true := by
  obtain ⟨b, hb, hp⟩ := List.any_eq_true.mp h
  rw [Bool.and_eq_true] at hp
  refine List.any_eq_true.mpr ⟨b, hb, ?_⟩
  rw [Bool.and_eq_true]
  refine ⟨hp.2, ?_⟩
  rw [eq_of_beq hp.1]
  exact hasSubChars_refl target.data

/-! ## Upsert lemmas (workspace preparation and push, towards C2) -/

lemma find?_name_of_nodup (target : String) : ∀ (l : List Branch) (b : Branch),
    (l.map Branch.name).Nodup → b ∈ l → (b.name == target) = true →
    List.find? (fun k => k.name == target) l = some b := by
  intro l
  induction l with
  | nil =>
    intro b _ hb _
    cases hb
  | cons a l ih =>
    intro b hnd hb hbt
    rw [List.map_cons, List.nodup_cons] at hnd
    rcases List.mem_cons.mp hb with rfl | hb2
    · exact List.find?_cons_of_pos l hbt
    · by_cases ha : (a.name == target) = true
      · exfalso
        apply hnd.1
        have hn : a.name = b.name := by rw [eq_of_beq ha, eq_of_beq hbt]
        rw [hn]
        exact List.mem_map_of_mem Branch.name hb2
      · rw [List.find?_cons_of_neg l ha]
        exact ih b hnd.2 hb2 hbt

lemma find?_map_upsert (target : String) (cs : List Nat) : ∀ l : List Branch,
    (∃ b ∈ l, (b.name == target) = true) →
    List.find? (fun k => k.name == target)
        (l.map (fun b => if b.name == target then (⟨b.name, cs⟩ : Branch) else b))
      = some ⟨target, cs⟩ := by
  intro l
  induction l with
  | nil =>
    rintro ⟨b, hb, -⟩
    cases hb
  | cons a l ih =>
    rintro ⟨b, hb, hbt⟩
    rw [List.map_cons]
    by_cases ha : (a.name == target) = true
    · rw [if_pos ha, @List.find?_cons_of_pos Branch (fun k => k.name == target) ⟨a.name, cs⟩ _ ha]
      rw [show (⟨a.name, cs⟩ : Branch) = ⟨target, cs⟩ from by rw [eq_of_beq ha]]
    · rw [if_neg ha, @List.find?_cons_of_neg Branch (fun k => k.name == target) a _ ha]
      apply ih
      rcases List.mem_cons.mp hb with rfl | hb2
      · exact absurd hbt ha
      · exact ⟨b, hb2, hbt⟩

lemma branchCommits_upsert (r : Repo) (target : String) (cs : List Nat) :
    branchCommits (upsertBranch r target cs) target = cs := by
  unfold upsertBranch
  by_cases h : branchExists r target = true
  · rw [if_pos h]
    unfold branchCommits
    rw [find?_map_upsert target cs r.branches (List.any_eq_true.mp h)]
  · rw [if_neg h]
    unfold branchCommits
    rw [List.find?_append]
    have hnone : List.find? (fun b => b.name == target) r.branches = none := by
      rw [List.find?_eq_none]
      intro b hb hbt
      exact h (List.any_eq_true.mpr ⟨b, hb, hbt⟩)
    rw [hnone, Option.none_or,
      @List.find?_cons_of_pos Branch (fun b => b.name == target) ⟨target, cs⟩ [] (beq_self_eq_true target)]

lemma upsert_exists (r : Repo) (target : String) (cs : List Nat) :
    branchExists (upsertBranch r target cs) target = true := by
  unfold upsertBranch
  by_cases h : branchExists r target = true
  · rw [if_pos h]
    obtain ⟨b, hb, hbt⟩ := List.any_eq_true.mp h
    refine List.any_eq_true.mpr ⟨⟨b.name, cs⟩, ?_, hbt⟩
    exact List.mem_map.mpr ⟨b, hb, by rw [if_pos hbt]⟩
  · rw [if_neg h]
    show (r.branches ++ [(⟨target, cs⟩ : Branch)]).any (fun b => b.name == target) = true
    refine List.any_eq_true.mpr ⟨⟨target, cs⟩, ?_, beq_self_eq_true target⟩
    exact List.mem_append_right _ (List.mem_cons_self _ _)

lemma upsert_names_nodup (r : Repo) (target : String) (cs : List Nat)
    (hnd : (r.branches.map Branch.name).Nodup) :
    ((upsertBranch r target cs).branches.map Branch.name).Nodup := by
  unfold upsertBranch
  by_cases h : branchExists r target = true
  · rw [if_pos h]
    have heq : (r.branches.map
        (fun b => if b.name == target then (⟨b.name, cs⟩ : Branch) else b)).map Branch.name
        = r.branches.map Branch.name := by
      rw [List.map_map]
      apply List.map_congr_left
      intro b _
      by_cases hb2 : (b.name == target) = true
      · simp [Function.comp, hb2]
      · simp [Function.comp, hb2]
    show ((r.branches.map _).map Branch.name).Nodup
    rw [heq]
    exact hnd
  · rw [if_neg h]
    show ((r.branches ++ [(⟨target, cs⟩ : Branch)]).map Branch.name).Nodup
    rw [List.map_append, List.nodup_append]
    refine ⟨hnd, by simp, ?_⟩
    intro n hn hn2
    simp only [List.map_cons, List.map_nil, List.mem_singleton] at hn2
    subst hn2
    obtain ⟨b, hb, hbn⟩ := List.mem_map.mp hn
    exact h (List.any_eq_true.mpr ⟨b, hb, by rw [hbn]; exact beq_self_eq_true _⟩)

lemma upsert_of_already (r : Repo) (target : String) (cs : List Nat)
    (hex : branchExists r target = true)
    (hall : ∀ b ∈ r.branches, (b.name == target) = true → b.commits = cs) :
    upsertBranch r target cs = r := by
  cases r with
  | mk bs =>
    unfold upsertBranch
    rw [if_pos hex]
    congr 1
    have hpt : ∀ b ∈ bs, (if b.name == target then (⟨b.name, cs⟩ : Branch) else b) = b := by
      intro b hb
      by_cases hbt : (b.name == target) = true
      · rw [if_pos hbt, ← hall b hb hbt]
      · rw [if_neg hbt]
    rw [List.map_congr_left hpt]
    simp

lemma upsert_self (r : Repo) (target : String)
    (hex : branchExists r target = true)
    (hnd : (r.branches.map Branch.name).Nodup) :
    upsertBranch r target (branchCommits r target) = r := by
  apply upsert_of_already r target _ hex
  intro b hb hbt
  have hf := find?_name_of_nodup target r.branches b hnd hb hbt
  unfold branchCommits
  rw [hf]

lemma upsert_idem (r : Repo) (target : String) (cs : List Nat) :
    upsertBranch (upsertBranch r target cs) target cs = upsertBranch r target cs := by
  apply upsert_of_already _ target cs (upsert_exists r target cs)
  intro b hb hbt
  unfold upsertBranch at hb
  by_cases hex : branchExists r target = true
  · rw [if_pos hex] at hb
    obtain ⟨a, ha, hfa⟩ := List.mem_map.mp hb
    by_cases hat : (a.name == target) = true
    · rw [if_pos hat] at hfa
      rw [← hfa]
    · rw [if_neg hat] at hfa
      rw [← hfa] at hbt
      exact absurd hbt hat
  · rw [if_neg hex] at hb
    rcases List.mem_append.mp hb with hb1 | hb1
    · exact absurd (List.any_eq_true.mpr ⟨b, hb1, hbt⟩) hex
    · rw [List.mem_singleton.mp hb1]

/-! ## Replay invariants and idempotence (C2) -/

lemma replay_all_skipped (conflicts : Nat → Bool) (target : String) :
    ∀ (cs : List Nat) (ws : Workspace),
      (∀ sha ∈ cs, skipCheck ws.repo target sha = true) →
      replayLoop conflicts target cs ws = (ws, 0, none) := by
  intro cs
  induction cs with
  | nil =>
    intro ws _
    rfl
  | cons sha rest ih =>
    intro ws h
    have hsk := h sha (List.mem_cons_self sha rest)
    simp only [replayLoop]
    rw [if_pos hsk]
    exact ih ws (fun s hs => h s (List.mem_cons_of_mem sha hs))

lemma replay_success_inv (conflicts : Nat → Bool) (target : String) :
    ∀ (cs : List Nat) (ws ws' : Workspace) (n : Nat),
      replayLoop conflicts target cs ws = (ws', n, none) →
      branchExists ws.repo target = true →
      ws'.cloned = ws.cloned ∧ ws'.currentBranch = ws.currentBranch ∧
        ws'.pendingOp = ws.pendingOp ∧
        ws'.repo.branches.map Branch.name = ws.repo.branches.map Branch.name ∧
        Repo.Le ws.repo ws'.repo ∧
        ∀ sha ∈ cs, skipCheck ws'.repo target sha = true := by
  intro cs
  induction cs with
  | nil =>
    intro ws ws' n h _
    simp only [replayLoop, Prod.mk.injEq] at h
    obtain ⟨h1, -, -⟩ := h
    subst h1
    exact ⟨rfl, rfl, rfl, rfl, repoLe_refl _, by simp⟩
  | cons sha rest ih =>
    intro ws ws' n h hex
    by_cases hsk : skipCheck ws.repo target sha = true
    · rw [show replayLoop conflicts target (sha :: rest) ws
          = replayLoop conflicts target rest ws from by
        simp only [replayLoop]
        rw [if_pos hsk]] at h
      obtain ⟨hc, hcb, hp, hnames, hle, hall⟩ := ih ws ws' n h hex
      refine ⟨hc, hcb, hp, hnames, hle, ?_⟩
      intro s hs
      rcases List.mem_cons.mp hs with rfl | hs2
      · exact skipCheck_mono target s hle hsk
      · exact hall s hs2
    · by_cases hcf : conflicts sha = true
      · simp only [replayLoop] at h
        rw [if_neg hsk, if_pos hcf] at h
        simp only [Prod.mk.injEq] at h
        exact absurd h.2.2 (by simp)
      · simp only [replayLoop] at h
        rw [if_neg hsk, if_neg hcf] at h
        rcases hr : replayLoop conflicts target rest
            ⟨ws.cloned, addShaToBranch ws.repo target sha, ws.currentBranch, ws.pendingOp⟩
          with ⟨ws2, m, e⟩
        rw [hr] at h
        simp only [Prod.mk.injEq] at h
        obtain ⟨rfl, -, rfl⟩ := h
        have hex1 : branchExists (addShaToBranch ws.repo target sha) target = true := by
          rw [branchExists_eq_names, addSha_names, ← branchExists_eq_names]
          exact hex
        obtain ⟨hc, hcb, hp, hnames, hle, hall⟩ := ih _ ws2 m hr hex1
        refine ⟨hc, hcb, hp, hnames.trans (addSha_names ws.repo target sha),
          repoLe_trans (addSha_le ws.repo target sha) hle, ?_⟩
        intro s hs
        rcases List.mem_cons.mp hs with rfl | hs2
        · exact skipCheck_mono target s hle (addSha_skip ws.repo target s hex)
        · exact hall s hs2

lemma prepare_after_push (remote : Repo) (ws2 : Workspace) (target : String)
    (hcl : ws2.cloned = true) (hcb : ws2.currentBranch = target) (hp : ws2.pendingOp = none)
    (hex : branchExists ws2.repo target = true)
    (hnd : (ws2.repo.branches.map Branch.name).Nodup) :
    prepareWorkspace (pushTo remote target ws2.repo) ws2 target = ws2 := by
  cases ws2 with
  | mk c r cb p =>
    subst hcl
    subst hp
    have hcb2 : target = cb := hcb.symm
    subst hcb2
    show (⟨true,
        upsertBranch r target
          (branchCommits (upsertBranch remote target (branchCommits r target)) target),
        target, none⟩ : Workspace) = ⟨true, r, target, none⟩
    rw [branchCommits_upsert, upsert_self r target hex hnd]

lemma processJob_eq_of_prepared (conflicts : Nat → Bool) (upstream : List PR)
    (sys2 : SysState) (target : String)
    (hemp : (ghPrList upstream).isEmpty = false)
    (hprep : prepareWorkspace sys2.remote sys2.ws target = sys2.ws)
    (hskip : ∀ sha ∈ commitsToPick upstream, skipCheck sys2.ws.repo target sha = true)
    (hpush : pushTo sys2.remote target sys2.ws.repo = sys2.remote) :
    processJob conflicts upstream sys2 target = ⟨sys2, 0, true, none⟩ := by
  have hreplay := replay_all_skipped conflicts target (commitsToPick upstream) sys2.ws hskip
  unfold processJob
  simp [hemp, hprep, hreplay, hpush]

lemma processJob_idem (conflicts : Nat → Bool) (upstream : List PR) (sys : SysState)
    (target : String) (out : RunOutcome)
    (hnd : (sys.ws.repo.branches.map Branch.name).Nodup)
    (h : processJob conflicts upstream sys target = out)
    (he : out.err = none) :
    processJob conflicts upstream out.sys target = ⟨out.sys, 0, out.pushed, none⟩ := by
  by_cases hemp : (ghPrList upstream).isEmpty = true
  · unfold processJob at h
    rw [if_pos hemp] at h
    rw [← h]
    unfold processJob
    rw [if_pos hemp]
  · unfold processJob at h
    rw [if_neg hemp] at h
    rcases hr : replayLoop conflicts target (commitsToPick upstream)
        (prepareWorkspace sys.remote sys.ws target) with ⟨ws2, n, e⟩
    simp only [hr] at h
    cases e with
    | some msg =>
      rw [← h] at he
      simp at he
    | none =>
      rw [← h]
      have hex1 : branchExists (prepareWorkspace sys.remote sys.ws target).repo target = true :=
        upsert_exists _ target _
      have hndbase : ((if sys.ws.cloned then sys.ws.repo
          else Repo.mk [⟨target, branchCommits sys.remote target⟩]).branches.map
            Branch.name).Nodup := by
        by_cases hcl : sys.ws.cloned = true
        · rw [if_pos hcl]
          exact hnd
        · rw [if_neg hcl]
          simp
      have hnd1 : ((prepareWorkspace sys.remote sys.ws target).repo.branches.map
          Branch.name).Nodup :=
        upsert_names_nodup _ target _ hndbase
      obtain ⟨hc, hcb, hp, hnames, hle, hall⟩ :=
        replay_success_inv conflicts target (commitsToPick upstream) _ ws2 n hr hex1
      have hnd2 : (ws2.repo.branches.map Branch.name).Nodup := by
        rw [hnames]
        exact hnd1
      have hex2 : branchExists ws2.repo target = true := by
        rw [branchExists_eq_names, hnames, ← branchExists_eq_names]
        exact hex1
      have hprep : prepareWorkspace (pushTo sys.remote target ws2.repo) ws2 target = ws2 :=
        prepare_after_push sys.remote ws2 target hc hcb hp hex2 hnd2
      have hpush : pushTo (pushTo sys.remote target ws2.repo) target ws2.repo
          = pushTo sys.remote target ws2.repo := by
        unfold pushTo
        exact upsert_idem sys.remote target (branchCommits ws2.repo target)

      have hemp' : (ghPrList upstream).isEmpty = false := by
        revert hemp
        cases (ghPrList upstream).isEmpty <;> simp
      exact processJob_eq_of_prepared conflicts upstream
        ⟨pushTo sys.remote target ws2.repo, ws2⟩ target hemp' hprep hall hpush

/-- C2: a commit already reachable from the current target branch tip is
skipped without error and without touching the workspace (the replay
step for it is the identity on the whole loop state); consequently,
re-running `processJob` with identical parameters after a prior
successful run performs zero additional cherry-picks and leaves the
remote and the workspace exactly as the first run left them. -/
theorem replay_skip_and_idempotent :
    (∀ (conflicts : Nat → Bool) (target : String) (ws : Workspace) (sha : Nat)
        (rest : List Nat),
        reachTip ws.repo target sha = true →
        replayLoop conflicts target (sha :: rest) ws = replayLoop conflicts target rest ws) ∧
    (∀ (conflicts : Nat → Bool) (upstream : List PR) (sys : SysState) (target : String)
        (out : RunOutcome),
        (sys.ws.repo.branches.map Branch.name).Nodup →
        processJob conflicts upstream sys target = out → out.err = none →
        processJob conflicts upstream out.sys target = ⟨out.sys, 0, out.pushed, none⟩) := by
  constructor
  · intro conflicts target ws sha rest h
    simp only [replayLoop]
    rw [if_pos (reachTip_skip ws.repo target sha h)]
  · exact processJob_idem

theorem replay_skip_and_idempotent_witness :
    replayLoop (fun _ => false) "main" [5]
        ⟨true, ⟨[⟨"main", [5, 0]⟩]⟩, "main", none⟩ =
      replayLoop (fun _ => false) "main" []
        ⟨true, ⟨[⟨"main", [5, 0]⟩]⟩, "main", none⟩ ∧
    processJob (fun _ => false) [⟨1, 4, 11⟩, ⟨2, 6, 12⟩]
        (⟨⟨[⟨"main", [12, 11, 0]⟩]⟩, ⟨true, ⟨[⟨"main", [12, 11, 0]⟩]⟩, "main", none⟩⟩ : SysState)
        "main" =
      ⟨⟨⟨[⟨"main", [12, 11, 0]⟩]⟩, ⟨true, ⟨[⟨"main", [12, 11, 0]⟩]⟩, "main", none⟩⟩, 0, true,
        none⟩ :=
  ⟨replay_skip_and_idempotent.1 (fun _ => false) "main"
      ⟨true, ⟨[⟨"main", [5, 0]⟩]⟩, "main", none⟩ 5 [] (by decide),
   replay_skip_and_idempotent.2 (fun _ => false) [⟨1, 4, 11⟩, ⟨2, 6, 12⟩]
      ⟨⟨[⟨"main", [0]⟩]⟩, ⟨false, ⟨[]⟩, "", none⟩⟩ "main"
      ⟨⟨⟨[⟨"main", [12, 11, 0]⟩]⟩, ⟨true, ⟨[⟨"main", [12, 11, 0]⟩]⟩, "main", none⟩⟩, 2, true,
        none⟩
      (by simp) rfl rfl⟩

end DevOpsNexus
